import Mathlib

/-!
# Verification of the readline editing core

Shallow embedding of the editing core of the `readline` repository
(`vim-utils.go`, `selection.go`, `history.go` and the widget file) as pure
Lean functions, together with theorems settling the frozen claims about it.

The line buffer (`[]rune` in Go) is modelled as `List Char`; Go `int` values
are modelled as `Int` where negative values or signed arithmetic matter, and
as `Nat` where the source guarantees non-negativity.  Go operations that can
panic (out-of-bounds indexing or slicing) are modelled with `Option`, `none`
standing for the panic.
-/

namespace Readline

/-- The input line buffer: Go `[]rune`. -/
abbrev Line := List Char

/-- Blank characters, as used by the whitespace-splitting helpers. -/
def isBlank (c : Char) : Bool := c = ' ' ∨ c = '\t'

/-- Word characters, the Go regex class `[0-9a-zA-Z_]` used in
`selection.go` (`selectInWord`). -/
def isWordChar (c : Char) : Bool := c.isAlpha ∨ c.isDigit ∨ c = '_'

/-- ASCII digit test, the Go regex class `[0-9]`. -/
def isDigitChar (c : Char) : Bool := '0' ≤ c ∧ c ≤ '9'

/-- ASCII letter test, the Go regex class `[a-zA-Z]`. -/
def isAlphaChar (c : Char) : Bool := ('a' ≤ c ∧ c ≤ 'z') ∨ ('A' ≤ c ∧ c ≤ 'Z')

/-- Go slicing `line[b:e]`: defined when `0 ≤ b ≤ e ≤ len(line)`,
a panic (modelled as `none`) otherwise. -/
def goSlice (line : Line) (b e : Int) : Option Line :=
  if 0 ≤ b ∧ b ≤ e ∧ e ≤ (line.length : Int) then
    some ((line.drop b.toNat).take (e - b).toNat)
  else none

/-!
## Whitespace-only tokenizer and register-store helpers

`tokeniseSplitSpaces` is code of the repository that is not under `src/`
(only its callers are).  Modelled from the spec: the whitespace-only
tokenizer "splits strictly on blank runs (shell-word semantics)".  The call
sites embedded here (`vimDeleteToken`) pass cursor position `0` and discard
the index/offset results, so only the token list is modelled.
-/

/-- Modelled from the spec: accumulator-based splitter producing the maximal
non-blank runs of the line, in order (`acc` is the current run, reversed). -/
def splitWordsAux : Line → Line → List Line
  | [], acc => if acc = [] then [] else [acc.reverse]
  | c :: rest, acc =>
    if isBlank c then
      (if acc = [] then splitWordsAux rest [] else acc.reverse :: splitWordsAux rest [])
    else splitWordsAux rest (c :: acc)

/-- Modelled from the spec: the token list of the whitespace-only tokenizer
(`tokeniseSplitSpaces`), i.e. the whitespace-delimited tokens of the line. -/
def splitWords (l : Line) : List Line := splitWordsAux l []

/-- Fuel-indexed core of `removeAll`; the fuel only serves structural
termination and is always at least the length of the scanned list, so the
`0` case is unreachable from `removeAll`. -/
def removeAllFuel (pat : Line) : Nat → Line → Line
  | 0, l => l
  | _ + 1, [] => []
  | fuel + 1, c :: rest =>
    if pat ≠ [] ∧ pat.isPrefixOf (c :: rest) then
      removeAllFuel pat fuel (List.drop pat.length (c :: rest))
    else c :: removeAllFuel pat fuel rest

/-- Go `strings.ReplaceAll(s, pat, "")`: remove every (non-overlapping,
left-to-right) occurrence of `pat` from `s`. -/
def removeAll (pat s : Line) : Line := removeAllFuel pat s.length s

/-- Remove only the first occurrence of `pat` from `s` (the behaviour the
spec ascribes to `vimDeleteToken`); used to compare against the embedded
code, which uses `removeAll`. -/
def removeFirstOcc (pat : Line) : Line → Line
  | [] => []
  | c :: rest =>
    if pat ≠ [] ∧ pat.isPrefixOf (c :: rest) then
      List.drop pat.length (c :: rest)
    else c :: removeFirstOcc pat rest

/-- Editing state touched by `vimDeleteToken`: the line buffer and the
cursor.  The cursor is an `Int` because the Go field is an `int` and the
claims are about whether it can leave `[0, len(line)]`. -/
structure EdState where
  line : Line
  pos : Int
  deriving DecidableEq, Repr

/-- `vimDeleteToken` from `vim-utils.go`: interpret `r` as an ASCII digit,
select the n-th whitespace-delimited token, remove its text from the line
with `strings.ReplaceAll`, and signal a no-op (`false`) when nothing
changed.  The `redisplay` side effect is not modelled. -/
def vimDeleteToken (st : EdState) (r : Char) : Bool × EdState :=
  let tokens := splitWords st.line
  let n : Int := (r.toNat : Int) - 48
  if n > (tokens.length : Int) then (false, st)
  else
    let tokText := tokens.getD (n - 1).toNat []
    let newLine := removeAll tokText st.line
    if newLine = st.line then (false, st)
    else
      let pos' := if st.pos > (newLine.length : Int) then (newLine.length : Int) - 1 else st.pos
      (true, ⟨newLine, pos'⟩)

/-!
## Quote-pair disambiguation (`adjustSurroundQuotes`, `selection.go`)
-/

/-- `adjustSurroundQuotes` from `selection.go`: choose between the
double-quote pair `(dBpos, dEpos)` and the single-quote pair
`(sBpos, sEpos)`, `-1` meaning the corresponding search failed. -/
def adjustSurroundQuotes (dBpos dEpos sBpos sEpos : Int) : Int × Int :=
  if (sBpos = -1 ∨ sEpos = -1) ∧ (dBpos = -1 ∨ dEpos = -1) then (-1, -1)
  else
    let doubleFirstAndValid :=
      dBpos < sBpos ∧ 0 ≤ dBpos ∧ 0 ≤ sBpos ∧ sEpos < dEpos
    let singleFirstAndValid :=
      sBpos < dBpos ∧ 0 ≤ sBpos ∧ 0 ≤ dBpos ∧ dEpos < sEpos
    if (sBpos = -1 ∨ sEpos = -1) ∨ doubleFirstAndValid then (dBpos, dEpos)
    else if (dBpos = -1 ∨ dEpos = -1) ∨ singleFirstAndValid then (sBpos, sEpos)
    else (-1, -1)

/-- A quote pair counts as found when both of its positions are `≥ 0`. -/
def pairFound (b e : Int) : Prop := 0 ≤ b ∧ 0 ≤ e

instance (b e : Int) : Decidable (pairFound b e) := by
  unfold pairFound; infer_instance

/-- C7: For all four input positions of `adjustSurroundQuotes` (`-1` meaning
that search failed): if both pairs were found, the outermost valid pair is
returned (the pair whose begin is smaller and whose end is larger); if
exactly one pair was found, that pair is returned; if neither was found,
both outputs are `-1`. -/
theorem adjustSurroundQuotes_correct
    (dB dE sB sE : Int)
    (hdB : -1 ≤ dB) (hdE : -1 ≤ dE) (hsB : -1 ≤ sB) (hsE : -1 ≤ sE) :
    (pairFound dB dE → pairFound sB sE → dB < sB → sE < dE →
        adjustSurroundQuotes dB dE sB sE = (dB, dE)) ∧
    (pairFound dB dE → pairFound sB sE → sB < dB → dE < sE →
        adjustSurroundQuotes dB dE sB sE = (sB, sE)) ∧
    (pairFound dB dE → ¬ pairFound sB sE →
        adjustSurroundQuotes dB dE sB sE = (dB, dE)) ∧
    (¬ pairFound dB dE → pairFound sB sE →
        adjustSurroundQuotes dB dE sB sE = (sB, sE)) ∧
    (¬ pairFound dB dE → ¬ pairFound sB sE →
        adjustSurroundQuotes dB dE sB sE = (-1, -1)) := by
  unfold pairFound at *
  refine ⟨?_, ?_, ?_, ?_, ?_⟩ <;>
    · intros
      simp only [adjustSurroundQuotes]
      split_ifs <;> first
        | rfl
        | (exfalso; omega)

/-- Witness for C7 at a concrete input: both pairs found, the double-quote
pair outermost, so it wins. -/
theorem adjustSurroundQuotes_correct_witness :
    pairFound 0 5 ∧ pairFound 1 4 ∧ (0 : Int) < 1 ∧ (4 : Int) < 5 ∧
    adjustSurroundQuotes 0 5 1 4 = (0, 5) :=
  ⟨by decide, by decide, by decide, by decide,
    (adjustSurroundQuotes_correct 0 5 1 4 (by decide) (by decide) (by decide)
      (by decide)).1 (by decide) (by decide) (by decide) (by decide)⟩

/-!
## Surround search (`searchSurround`, `selection.go`) — claim C10
-/

/-- `matchSurround` from `vim-utils.go`: resolve a rune to its matching
open/close delimiter pair (quotes match themselves). -/
def matchSurround (r : Char) : Char × Char :=
  match r with
  | '{' => ('{', '}')
  | '(' => ('(', ')')
  | '[' => ('[', ']')
  | '<' => ('<', '>')
  | '}' => ('{', '}')
  | ')' => ('(', ')')
  | ']' => ('[', ']')
  | '>' => ('<', '>')
  | c => (c, c)

/-- Index of the first element of `l` equal to `r`, counting from `i`
(`l` is a suffix of the line starting at index `i`); `-1` if absent. -/
def fwdFind (r : Char) : Line → Nat → Int
  | [], _ => -1
  | c :: rest, i => if c = r then (i : Int) else fwdFind r rest (i + 1)

/-- Forward scan for `r`, starting at index `i` (inclusive); `-1` if absent. -/
def substrPosFwd (line : Line) (r : Char) (i : Nat) : Int :=
  fwdFind r (line.drop i) i

/-- Backward scan for `r`, starting at index `i` (inclusive, out-of-range
indices simply never match); `-1` if absent. -/
def substrPosBack (line : Line) (r : Char) : Nat → Int
  | 0 => if line.getD 0 ' ' = r then 0 else -1
  | i + 1 => if line.getD (i + 1) ' ' = r then ((i : Int) + 1) else substrPosBack line r i

/-- Modelled from the spec: `substrPos` (repository code not under `src/`)
scans from the cursor, forward or backward, for the given character and
returns its index, `-1` when it is not found. -/
def substrPos (line : Line) (pos : Nat) (r : Char) (forward : Bool) : Int :=
  if forward then substrPosFwd line r pos else substrPosBack line r pos

/-- `searchSurround` from `selection.go`: find the enclosing delimiter pair
around the cursor.  The Go method temporarily mutates `rl.pos` (the probes
`rl.pos++` / `rl.pos--`) and restores it from `posInit` before returning;
the model returns both the search result and the final `(line, pos)`
state. -/
def searchSurround (line : Line) (pos : Nat) (r : Char) :
    (Int × Int × Char × Char) × Line × Nat :=
  let posInit := pos
  let bchar := (matchSurround r).1
  let echar := (matchSurround r).2
  let bpos := substrPos line pos bchar false
  let epos := substrPos line pos echar true
  let res :=
    if bpos = epos then
      let pos1 := pos + 1
      let epos1 := substrPos line pos1 echar true
      if epos1 = -1 then
        let pos2 := pos1 - 1
        let epos2 := substrPos line pos2 echar false
        if epos2 ≠ -1 then (epos2, bpos) else (bpos, epos2)
      else (bpos, epos1)
    else (bpos, epos)
  ((res.1, res.2, bchar, echar), line, posInit)

/-- C10: `searchSurround` is observationally pure on the editing state: for
every buffer, cursor position and surround rune, the cursor position after
the call equals the one before it (the temporary probe moves are rewound via
`posInit`), and the line buffer is not modified. -/
theorem searchSurround_frame (line : Line) (pos : Nat) (r : Char) :
    (searchSurround line pos r).2.1 = line ∧
    (searchSurround line pos r).2.2 = pos := by
  constructor <;> rfl

/-!
## History walking (`walkHistory`, `history.go`) — claim C9
-/

/-- The parts of the instance state that `walkHistory` reads or writes. -/
structure WalkState where
  line : Line
  pos : Int
  lineBuf : Line
  histPos : Int
  historySourcePos : Nat
  deriving DecidableEq, Repr

/-- A history backend, at the interface the core consumes (`History`
interface in `history.go`): a length and a fallible `GetLine`. -/
structure Hist where
  len : Nat
  getLine : Int → Except String Line

/-- `fileHistory.GetLine` from `history.go`. -/
def fileHistoryGetLine (list : List Line) (i : Int) : Except String Line :=
  if i < 0 then .error "cannot use a negative index when requesting historic commands"
  else if i < (list.length : Int) then .ok (list.getD i.toNat [])
  else .error "index requested greater than number of items in history"

/-- The history position after the clamping switch in `walkHistory`
(`rl.histPos += pos` followed by the bounds cases). -/
def walkNewHistPos (hlen : Nat) (histPos p : Int) : Int :=
  let hp := histPos + p
  if hp > (hlen : Int) then (hlen : Int)
  else if hp < 0 then 0
  else hp

/-- The state after `walkHistory`'s buffer-stash and history-position
adjustment, before the `GetLine` call: stash the current line into `lineBuf`
when leaving position 0 for position 1, then apply `rl.histPos += pos` and
the clamping switch (whose `histPos == 0` case also restores the stashed
buffer; the `histPos < 0` case only clamps). -/
def walkAdjust (hlen : Nat) (st : WalkState) (p : Int) : WalkState :=
  let st1 := if st.histPos = 0 ∧ st.histPos + p = 1 then { st with lineBuf := st.line } else st
  if st1.histPos + p = 0 then
    { st1 with histPos := 0, line := st1.lineBuf, pos := (st1.lineBuf.length : Int) }
  else { st1 with histPos := walkNewHistPos hlen st1.histPos p }

/-- `walkHistory` from `history.go`.  The returned `List String` collects
the text printed during the call (the error surface); `resetHelpers`,
prompt re-printing and `clearLine`'s screen effects are not modelled. -/
def walkHistory (hist? : Option Hist) (st : WalkState) (p : Int) :
    WalkState × List String :=
  let st0 := { st with historySourcePos := 0 }
  match hist? with
  | none => (st0, [])
  | some h =>
    if h.len = 0 then (st0, [])
    else
      let st1 := walkAdjust h.len st0 p
      if st1.histPos > 0 then
        match h.getLine ((h.len : Int) - st1.histPos) with
        | .error e => (st1, ["\r\n" ++ e ++ "\r\n"])
        | .ok next => ({ st1 with line := next, pos := (next.length : Int) }, [])
      else (st1, [])

/-- On a walk whose adjusted history position is non-zero, `walkAdjust`
only moves `histPos` (and possibly the stash): line and cursor are kept. -/
theorem walkAdjust_of_ne (hlen : Nat) (st : WalkState) (p : Int)
    (hne : st.histPos + p ≠ 0) :
    (walkAdjust hlen st p).line = st.line ∧ (walkAdjust hlen st p).pos = st.pos ∧
    (walkAdjust hlen st p).histPos = walkNewHistPos hlen st.histPos p := by
  unfold walkAdjust
  set st1 := (if st.histPos = 0 ∧ st.histPos + p = 1 then { st with lineBuf := st.line } else st)
    with hst1
  have l1 : st1.line = st.line := by rw [hst1]; split <;> rfl
  have l2 : st1.pos = st.pos := by rw [hst1]; split <;> rfl
  have l3 : st1.histPos = st.histPos := by rw [hst1]; split <;> rfl
  rw [if_neg (by rw [l3]; exact hne)]
  exact ⟨l1, l2, by simp only [l3]⟩

/-- C9: during a history walk, whenever the backend's `GetLine` returns an
error, the walk step is aborted without crashing: the error text is printed,
and the line buffer and cursor position are exactly what they were before
the walk step. -/
theorem walkHistory_getLine_error (h : Hist) (st : WalkState) (p : Int) (e : String)
    (hlen : h.len ≠ 0)
    (hpos : 0 < walkNewHistPos h.len st.histPos p)
    (herr : h.getLine ((h.len : Int) - walkNewHistPos h.len st.histPos p) = .error e) :
    (walkHistory (some h) st p).1.line = st.line ∧
    (walkHistory (some h) st p).1.pos = st.pos ∧
    (walkHistory (some h) st p).2 = ["\r\n" ++ e ++ "\r\n"] := by
  have hne : st.histPos + p ≠ 0 := by
    intro h0
    simp only [walkNewHistPos, h0] at hpos
    split_ifs at hpos <;> omega
  have hst0 : ({ st with historySourcePos := 0 } : WalkState).histPos + p ≠ 0 := hne
  obtain ⟨e1, e2, e3⟩ := walkAdjust_of_ne h.len { st with historySourcePos := 0 } p hst0
  unfold walkHistory
  simp only [hlen, ite_false]
  rw [if_pos (by rw [e3]; exact hpos)]
  rw [show ((h.len : Int) - (walkAdjust h.len { st with historySourcePos := 0 } p).histPos)
        = ((h.len : Int) - walkNewHistPos h.len st.histPos p) by rw [e3]]
  rw [herr]
  exact ⟨e1, e2, rfl⟩

/-- Witness for C9 at a concrete input: a one-entry history whose backend
always fails; walking back one step leaves line and cursor untouched and
prints the error. -/
theorem walkHistory_getLine_error_witness :
    (⟨1, fun _ => .error "boom"⟩ : Hist).len ≠ 0 ∧
    0 < walkNewHistPos 1 0 1 ∧
    (walkHistory (some ⟨1, fun _ => .error "boom"⟩) ⟨['a'], 1, [], 0, 0⟩ 1).1.line = ['a'] ∧
    (walkHistory (some ⟨1, fun _ => .error "boom"⟩) ⟨['a'], 1, [], 0, 0⟩ 1).1.pos = 1 ∧
    (walkHistory (some ⟨1, fun _ => .error "boom"⟩) ⟨['a'], 1, [], 0, 0⟩ 1).2 =
      ["\r\n" ++ "boom" ++ "\r\n"] := by
  refine ⟨by decide, by decide, ?_⟩
  have := walkHistory_getLine_error ⟨1, fun _ => .error "boom"⟩ ⟨['a'], 1, [], 0, 0⟩ 1 "boom"
    (by decide) (by decide) (by rfl)
  exact ⟨this.1, this.2.1, this.2.2⟩

/-!
## Region normalization (`getSelectionPos`, `selection.go`) — claim C3
-/

/-- The visual-line extension loop of `getSelectionPos`: Go ranges over the
(pre-evaluated) slice `rl.line[epos:]` with index `i`, adding `i` to `epos`
at every non-newline character and breaking at a newline. -/
def visualLoop : Line → Int → Nat → Int
  | [], e, _ => e
  | c :: rest, e, i => if c = '\n' then e else visualLoop rest (e + i) (i + 1)

/-- `getSelectionPos` from `selection.go`: normalize `(mark, pos)` into
`(bpos, epos, cpos)`.  In visual-line mode the Go code evaluates
`rl.line[epos:]` before clamping; when `epos` is outside `[0, len(line)]`
that slice panics, modelled as `none`. -/
def getSelectionPos (line : Line) (mark pos : Int) (visualLine : Bool) :
    Option (Int × Int × Int) :=
  let bpos0 := if mark < pos then mark else pos
  let epos0 := if mark < pos then pos + 1 else mark
  let bpos1 := if visualLine then 0 else bpos0
  let epos1? : Option Int :=
    if visualLine then
      (if 0 ≤ epos0 ∧ epos0 ≤ (line.length : Int) then
        some (visualLoop (line.drop epos0.toNat) epos0 0)
      else none)
    else some epos0
  match epos1? with
  | none => none
  | some epos1 =>
    let epos2 := if epos1 > (line.length : Int) - 1 then (line.length : Int) else epos1
    let bpos2 := if bpos1 < 0 then 0 else bpos1
    some (bpos2, epos2, bpos2)

/-- C3 counterexample: with the visual-line flag set, buffer `"a"`, cursor
at the end (`pos = 1`) and no mark (`mark = -1`), the preliminary end is
`pos + 1 = 2 > len(line)`, so the Go code panics slicing `rl.line[2:]`
instead of returning clamped bounds. -/
theorem getSelectionPos_visual_panic :
    getSelectionPos ['a'] (-1) 1 true = none := by decide

/-- The visual-line loop only ever advances the end position. -/
theorem visualLoop_ge : ∀ (l : Line) (e : Int) (i : Nat), e ≤ visualLoop l e i := by
  intro l
  induction l with
  | nil => intro e i; exact le_refl e
  | cons c rest ih =>
    intro e i
    unfold visualLoop
    split
    · exact le_refl e
    · exact le_trans (by omega) (ih (e + i) (i + 1))

/-- C3 (amended): for every mark value and every cursor position
`0 ≤ pos ≤ len(line)`, `getSelectionPos` returns `0 ≤ bpos ≤ epos ≤
len(line)` — with the visual-line flag unset, unconditionally; with it set,
provided the preliminary end position (`pos + 1` if `mark < pos`, else
`mark`) does not exceed `len(line)` (otherwise the Go code panics, see the
counterexample). -/
theorem getSelectionPos_bounds (line : Line) (mark pos : Int) (visual : Bool)
    (h0 : 0 ≤ pos) (h1 : pos ≤ (line.length : Int))
    (h2 : visual = true → (if mark < pos then pos + 1 else mark) ≤ (line.length : Int)) :
    ∃ b e c, getSelectionPos line mark pos visual = some (b, e, c) ∧
      0 ≤ b ∧ b ≤ e ∧ e ≤ (line.length : Int) := by
  unfold getSelectionPos
  cases visual
  · simp only [ite_false, Bool.false_eq_true]
    refine ⟨_, _, _, rfl, ?_, ?_, ?_⟩ <;> split_ifs <;> omega
  · simp only [ite_true]
    have h2' := h2 rfl
    by_cases hm : mark < pos <;> simp only [hm, ite_true, ite_false] at h2' ⊢
    · rw [if_pos ⟨by omega, h2'⟩]
      have hv := visualLoop_ge (line.drop (pos + 1).toNat) (pos + 1) 0
      refine ⟨_, _, _, rfl, ?_, ?_, ?_⟩ <;> split_ifs <;> omega
    · rw [if_pos ⟨by omega, h2'⟩]
      have hv := visualLoop_ge (line.drop mark.toNat) mark 0
      refine ⟨_, _, _, rfl, ?_, ?_, ?_⟩ <;> split_ifs <;> omega

/-- Witness for C3 (amended) at a concrete input: buffer `"ab"`, mark 0,
cursor 1, visual-line flag unset. -/
theorem getSelectionPos_bounds_witness :
    0 ≤ (1 : Int) ∧ (1 : Int) ≤ (['a', 'b'].length : Int) ∧
    (∃ b e c, getSelectionPos ['a', 'b'] 0 1 false = some (b, e, c) ∧
      0 ≤ b ∧ b ≤ e ∧ e ≤ (['a', 'b'].length : Int)) :=
  ⟨by decide, by decide,
    getSelectionPos_bounds ['a', 'b'] 0 1 false (by decide) (by decide)
      (by intro h; cases h)⟩

/-!
## Numbered-token deletion (`vimDeleteToken`) — claims C1 and C4
-/

/-- C1 (code bug): `vimDeleteToken` violates the cursor-position invariant.
On buffer `"x"` with cursor 1 and digit `'1'`, the single token `"x"` is
removed, the line becomes empty, and the clamp `rl.pos = len(rl.line) - 1`
sets the cursor to `-1`, outside `[0, len(line)]`. -/
theorem vimDeleteToken_cursor_invariant_bug :
    vimDeleteToken ⟨['x'], 1⟩ '1' = (true, ⟨[], -1⟩) ∧
    (vimDeleteToken ⟨['x'], 1⟩ '1').2.pos < 0 := by decide

/-- C4 counterexample: on buffer `"a a"` and digit `'1'`, the first token
is `"a"`; `strings.ReplaceAll` removes **both** occurrences, leaving `" "`,
whereas removing only the first textual occurrence would leave `" a"`. -/
theorem vimDeleteToken_not_first_occurrence :
    (vimDeleteToken ⟨['a', ' ', 'a'], 3⟩ '1').2.line = [' '] ∧
    removeFirstOcc ['a'] ['a', ' ', 'a'] = [' ', 'a'] ∧
    (vimDeleteToken ⟨['a', ' ', 'a'], 3⟩ '1').2.line ≠
      removeFirstOcc ['a'] ['a', ' ', 'a'] := by decide

/-- C4 (amended): for every line, cursor and digit `'1'`–`'9'`,
`vimDeleteToken` removes **every** textual occurrence of the n-th
whitespace-delimited token's string (Go `strings.ReplaceAll`), not just the
first; and whenever the removal would leave the line unchanged (in
particular when the digit exceeds the token count) it returns the no-op
signal `false` and leaves the whole state untouched. -/
theorem vimDeleteToken_replaceAll (line : Line) (pos : Int) (r : Char)
    (hlo : '1' ≤ r) (hhi : r ≤ '9') :
    ((r.toNat : Int) - 48 > ((splitWords line).length : Int) →
      vimDeleteToken ⟨line, pos⟩ r = (false, ⟨line, pos⟩)) ∧
    ((r.toNat : Int) - 48 ≤ ((splitWords line).length : Int) →
      removeAll ((splitWords line).getD (((r.toNat : Int) - 48) - 1).toNat []) line = line →
      vimDeleteToken ⟨line, pos⟩ r = (false, ⟨line, pos⟩)) ∧
    ((r.toNat : Int) - 48 ≤ ((splitWords line).length : Int) →
      removeAll ((splitWords line).getD (((r.toNat : Int) - 48) - 1).toNat []) line ≠ line →
      (vimDeleteToken ⟨line, pos⟩ r).1 = true ∧
      (vimDeleteToken ⟨line, pos⟩ r).2.line =
        removeAll ((splitWords line).getD (((r.toNat : Int) - 48) - 1).toNat []) line) := by
  refine ⟨?_, ?_, ?_⟩
  · intro hgt
    unfold vimDeleteToken
    dsimp only
    rw [if_pos hgt]
  · intro hle heq
    unfold vimDeleteToken
    dsimp only
    rw [if_neg (by omega), if_pos heq]
  · intro hle hne
    unfold vimDeleteToken
    dsimp only
    rw [if_neg (by omega), if_neg hne]
    exact ⟨rfl, rfl⟩

/-- Witness for C4 (amended) at a concrete input: buffer `"ab"`, digit
`'1'`: the token `"ab"` is removed, leaving the empty line. -/
theorem vimDeleteToken_replaceAll_witness :
    ('1' ≤ '1' ∧ '1' ≤ '9') ∧
    (('1'.toNat : Int) - 48 ≤ ((splitWords ['a', 'b']).length : Int)) ∧
    removeAll ((splitWords ['a', 'b']).getD ((('1'.toNat : Int) - 48) - 1).toNat [])
      ['a', 'b'] ≠ ['a', 'b'] ∧
    (vimDeleteToken ⟨['a', 'b'], 2⟩ '1').1 = true ∧
    (vimDeleteToken ⟨['a', 'b'], 2⟩ '1').2.line =
      removeAll ((splitWords ['a', 'b']).getD ((('1'.toNat : Int) - 48) - 1).toNat [])
        ['a', 'b'] :=
  ⟨⟨by decide, by decide⟩, by decide, by decide,
    (vimDeleteToken_replaceAll ['a', 'b'] 2 '1' (by decide) (by decide)).2.2
      (by decide) (by decide)⟩

/-!
## Word selection and the keyword-transform engine — claims C5 and C6

`selectInWord` and `switchKeyword` are embedded from the source
(`selection.go` and the widget file); `lineSlice` and `keywordSwitchers`
are repository code not under `src/` and are modelled from the spec.
-/

/-- Character membership in the active regex class of `selectInWord`: the
word class `[0-9a-zA-Z_]`, or — when the seed character is not a word
character — the complementary class `[^0-9a-zA-Z_ ]`. -/
def inClass (wordClass : Bool) (c : Char) : Bool :=
  if wordClass then isWordChar c else !(isWordChar c) ∧ c ≠ ' '

/-- The backward loop of `selectInWord`: starting at index `i`, walk left
while the character matches the class; the result is the final value of
`bpos` (the first failing index, or `-1` when index 0 still matched). -/
def backLoop (line : Line) (wc : Bool) : Nat → Int
  | 0 => if inClass wc (line.getD 0 ' ') then -1 else 0
  | i + 1 => if inClass wc (line.getD (i + 1) ' ') then backLoop line wc i else ((i : Int) + 1)

/-- The forward loop of `selectInWord`: scan the suffix of the line
starting at index `i` while the class matches; result is the first failing
index (or `len(line)`). -/
def fwdScan (wc : Bool) : Line → Nat → Nat
  | [], i => i
  | c :: rest, i => if inClass wc c then fwdScan wc rest (i + 1) else i

/-- `selectInWord` from `selection.go`: the word span around `cpos`.  The
Go code indexes `rl.line[cpos]` without a bounds check; `cpos ≥ len(line)`
(in particular the empty line) panics, modelled as `none`. -/
def selectInWord (line : Line) (cpos : Nat) : Option (Int × Int) :=
  if h : cpos < line.length then
    let wc := isWordChar (line.get ⟨cpos, h⟩)
    let bpos := backLoop line wc cpos
    let epos : Int := (fwdScan wc (line.drop cpos) cpos : Int)
    some (bpos + 1, if epos > 0 then epos - 1 else epos)
  else none

/-- Modelled from the spec: `lineSlice n` (repository code not under
`src/`) returns the up-to-`n` characters of the line starting at the
cursor. -/
def lineSlice (line : Line) (pos n : Nat) : Line := (line.drop pos).take n

/-- The Go regex `[+-][0-9]` applied to the two-character cursor slice. -/
def matchSignDigit : Line → Bool
  | [a, b] => (a = '+' ∨ a = '-') ∧ isDigitChar b
  | _ => false

/-- The Go regex `[+-][a-zA-Z]` applied to the two-character cursor slice. -/
def matchSignAlpha : Line → Bool
  | [a, b] => (a = '+' ∨ a = '-') ∧ isAlphaChar b
  | _ => false

/-- A keyword-transform strategy: given the selected text and the
increase/decrease flag, returns `(changed, replacement, obpos, oepos)`
where `[obpos, oepos)` is the changed sub-span relative to the selection. -/
def Switcher := Line → Bool → Bool × Line × Int × Int

/-- The selection phase of `switchKeyword`: sign/short-option cursor
adjustment, `selectInWord`, `epos++`, sign extension of `bpos`, and the
extraction `rl.line[bpos:epos]`; `none` models the panics of
`selectInWord` (empty line / cursor past the end) and of an inverted
slice. -/
def switchKeywordPrep (line : Line) (pos : Nat) : Option (Int × Int × Nat × Line) :=
  let cpos :=
    if matchSignDigit (lineSlice line pos 2) then
      (if pos = 0 ∨ ¬ isDigitChar (line.getD (pos - 1) ' ') then pos + 1 else pos)
    else if matchSignAlpha (lineSlice line pos 2) then
      (if pos = 0 ∨ line.getD (pos - 1) ' ' = ' ' then pos + 1 else pos)
    else pos
  match selectInWord line cpos with
  | none => none
  | some (b0, e0) =>
    let e1 := e0 + 1
    let b1 :=
      if b0 ≠ 0 ∧ (line.getD (b0 - 1).toNat ' ' = '+' ∨ line.getD (b0 - 1).toNat ' ' = '-')
      then b0 - 1 else b0
    match goSlice line b1 e1 with
    | none => none
    | some sel => some (b1, e1, cpos, sel)

/-- The strategy loop of `switchKeyword`.  Go mutates `bpos`/`epos` before
the cursor-containment check, so a strategy that fires but misses the
cursor still updates them for the following strategies; the final line
splice `rl.line[:bpos] ++ word ++ rl.line[epos:]` panics when the updated
bounds leave `[0, len(line)]` (the outer `none`).  `some none` means the
loop fell through with no strategy applied. -/
def switchLoop (line sel : Line) (increase : Bool) (cpos : Nat) :
    List Switcher → Int → Int → Option (Option (Line × Int))
  | [], _, _ => some none
  | sw :: rest, b, e =>
    let res := sw sel increase
    if res.1 = false then switchLoop line sel increase cpos rest b e
    else
      let e' := b + res.2.2.2
      let b' := b + res.2.2.1
      if (cpos : Int) < b' ∨ (cpos : Int) ≥ e' then
        switchLoop line sel increase cpos rest b' e'
      else
        if 0 ≤ b' ∧ b' ≤ (line.length : Int) ∧ 0 ≤ e' ∧ e' ≤ (line.length : Int) then
          some (some (line.take b'.toNat ++ res.2.1 ++ line.drop e'.toNat,
            b' + (res.2.1.length : Int) - 1))
        else none

/-- `switchKeyword` from the widget file, parametrized by the strategy
list (`keywordSwitchers` is repository code not under `src/`) and by the
`increase` flag (Go derives it from `rl.keys == charCtrlA`).  Returns the
new `(line, pos)`; `none` models a panic. -/
def switchKeywordM (sws : List Switcher) (increase : Bool) (line : Line) (pos : Nat) :
    Option (Line × Int) :=
  match switchKeywordPrep line pos with
  | none => none
  | some (b1, e1, cpos, sel) =>
    match switchLoop line sel increase cpos sws b1 e1 with
    | none => none
    | some none => some (line, (pos : Int))
    | some (some r) => some r

/-- First failing index of a digit scan (helper of `digitSpanAux`). -/
def digitScan : Line → Nat → Nat
  | [], j => j
  | c :: rest, j => if isDigitChar c then digitScan rest (j + 1) else j

/-- The first maximal digit run of the selection, as `(start, stop)`. -/
def digitSpanAux : Line → Nat → Option (Nat × Nat)
  | [], _ => none
  | c :: rest, i =>
    if isDigitChar c then some (i, digitScan rest (i + 1)) else digitSpanAux rest (i + 1)

/-- Decimal value of a digit run. -/
def parseNat (l : Line) : Nat := l.foldl (fun acc c => acc * 10 + (c.toNat - 48)) 0

/-- Modelled from the spec: the numeric increment/decrement strategy of
`keywordSwitchers` (repository code not under `src/`): find the first
digit run of the selection (with an immediately preceding minus sign, if
any), add or subtract one, and report the changed sub-span. -/
def switchNumber : Switcher := fun sel increase =>
  match digitSpanAux sel 0 with
  | none => (false, [], 0, 0)
  | some (i, j) =>
    let neg := 0 < i ∧ sel.getD (i - 1) ' ' = '-'
    let b := if neg then i - 1 else i
    let v : Int := (if neg then -1 else 1) * (parseNat ((sel.drop i).take (j - i)) : Int)
    let v' := if increase then v + 1 else v - 1
    let out : Line := if v' < 0 then '-' :: Nat.toDigits 10 v'.natAbs
      else Nat.toDigits 10 v'.natAbs
    (true, out, (b : Nat), (j : Nat))

/-- Modelled from the spec: the ordered strategy list of the
keyword-transform engine (repository code not under `src/`); the spec names
numeric increment/decrement as its exemplar strategy. -/
def keywordSwitchers : List Switcher := [switchNumber]

/-- C5 (code bug): an index computation in the editing core faults on
user-controlled input.  The widget `switch-keyword`, invoked from the
dispatch table on an empty line, reaches `selectInWord`'s unguarded
`rl.line[cpos]` and panics (index 0 of an empty slice) instead of clamping. -/
theorem switchKeyword_empty_line_panic :
    switchKeywordM keywordSwitchers true [] 0 = none ∧
    selectInWord [] 0 = none := by decide

/-- C6 counterexample: on the empty line no keyword-transform strategy
applies (there is nothing at the cursor), yet `switchKeyword` does not
leave the state unchanged — it panics (`none`), so it is not a no-op
there. -/
theorem switchKeyword_empty_line_not_noop :
    ¬ (switchKeywordM keywordSwitchers true [] 0 = some ([], 0)) := by decide

/-- When no strategy reports a change on the extracted selection, the
strategy loop falls through without touching anything. -/
theorem switchLoop_none (line sel : Line) (increase : Bool) (cpos : Nat) :
    ∀ (sws : List Switcher), (∀ sw ∈ sws, (sw sel increase).1 = false) →
      ∀ b e : Int, switchLoop line sel increase cpos sws b e = some none := by
  intro sws
  induction sws with
  | nil => intro _ b e; rfl
  | cons sw rest ih =>
    intro hnf b e
    unfold switchLoop
    rw [if_pos (hnf sw (List.mem_cons_self sw rest))]
    exact ih (fun s hs => hnf s (List.mem_cons_of_mem sw hs)) b e

/-- C6 (amended): for every state on which the word-selection phase of
`switchKeyword` is in bounds (in particular the line is non-empty and the
adjusted cursor rests on a character — otherwise the code panics, see the
counterexample) and on which no strategy applies to the extracted
selection, `switchKeyword` leaves the line and the cursor unchanged, and
running it twice from the same state yields the identical line and cursor
both times. -/
theorem switchKeyword_noop_idempotent (sws : List Switcher) (increase : Bool)
    (line : Line) (pos : Nat) (b e : Int) (cpos : Nat) (sel : Line)
    (hprep : switchKeywordPrep line pos = some (b, e, cpos, sel))
    (hnf : ∀ sw ∈ sws, (sw sel increase).1 = false) :
    switchKeywordM sws increase line pos = some (line, (pos : Int)) ∧
    (switchKeywordM sws increase line pos).bind
        (fun lp => switchKeywordM sws increase lp.1 lp.2.toNat) =
      some (line, (pos : Int)) := by
  have h1 : switchKeywordM sws increase line pos = some (line, (pos : Int)) := by
    unfold switchKeywordM
    rw [hprep]
    dsimp only
    rw [switchLoop_none line sel increase cpos sws hnf b e]
  refine ⟨h1, ?_⟩
  rw [h1]
  simpa using h1

/-- Witness for C6 (amended) at a concrete input: line `"foo"`, cursor 0;
the numeric strategy does not apply to `"foo"`, and the widget is a
no-op. -/
theorem switchKeyword_noop_idempotent_witness :
    switchKeywordPrep ['f', 'o', 'o'] 0 = some (0, 3, 0, ['f', 'o', 'o']) ∧
    (∀ sw ∈ keywordSwitchers, (sw ['f', 'o', 'o'] true).1 = false) ∧
    switchKeywordM keywordSwitchers true ['f', 'o', 'o'] 0 = some (['f', 'o', 'o'], 0) :=
  ⟨by decide, by decide,
    (switchKeyword_noop_idempotent keywordSwitchers true ['f', 'o', 'o'] 0 0 3 0
      ['f', 'o', 'o'] (by decide) (by decide)).1⟩

/-!
## Brace jumps (`viJumpPreviousBrace` / `viJumpNextBrace`, `vim-utils.go`)
— claim C8
-/

/-- The scan loop of `viJumpPreviousBrace`: Go runs
`for i := pos-1; i != 0; i--`, so the loop body never examines index 0.
The argument is the current loop index `i`. -/
def prevBraceLoop (line : Line) (pos : Nat) : Nat → Int
  | 0 => 0
  | i + 1 =>
    if line.getD (i + 1) ' ' = '{' then ((i : Int) + 1) - (pos : Int)
    else prevBraceLoop line pos i

/-- `viJumpPreviousBrace` from `vim-utils.go`. -/
def viJumpPreviousBrace (line : Line) (pos : Nat) : Int :=
  if pos = 0 then 0 else prevBraceLoop line pos (pos - 1)

/-- The scan loop of `viJumpNextBrace`: first `'{'` in the suffix of the
line starting at index `i` (`i` tracks the absolute index). -/
def nextBraceLoop (pos : Nat) : Line → Nat → Int
  | [], _ => 0
  | c :: rest, i => if c = '{' then (i : Int) - (pos : Int) else nextBraceLoop pos rest (i + 1)

/-- `viJumpNextBrace` from `vim-utils.go` (`rl.pos >= len(rl.line)-1` is a
Go `int` comparison, hence the `Int` cast). -/
def viJumpNextBrace (line : Line) (pos : Nat) : Int :=
  if (pos : Int) ≥ (line.length : Int) - 1 then 0
  else nextBraceLoop pos (line.drop (pos + 1)) (pos + 1)

/-- The greatest index `j` with `1 ≤ j ≤ i` and `line[j] = '{'`. -/
def lastBraceLe (line : Line) : Nat → Option Nat
  | 0 => none
  | i + 1 => if line.getD (i + 1) ' ' = '{' then some (i + 1) else lastBraceLe line i

/-- The least index `j ≥ i` with `line[j] = '{'` (absolute index `i`,
scanning the corresponding suffix). -/
def firstBraceFrom (pos : Nat) : Line → Nat → Option Nat
  | [], _ => none
  | c :: rest, i => if c = '{' then some i else firstBraceFrom pos rest (i + 1)

/-- C8 counterexample: on buffer `"{a"` with cursor 2, a `'{'` exists
strictly before the cursor (at index 0) and the cursor is not at buffer
start, yet `viJumpPreviousBrace` returns 0 — the scan loop `i != 0` never
examines index 0. -/
theorem viJumpPreviousBrace_misses_index_zero :
    viJumpPreviousBrace ['{', 'a'] 2 = 0 ∧ (2 : Nat) ≠ 0 ∧
    (0 : Nat) < 2 ∧ ['{', 'a'].getD 0 ' ' = '{' := by decide

/-- The previous-brace loop is the search for the greatest brace index in
`[1, i]`. -/
theorem prevBraceLoop_eq (line : Line) (pos : Nat) :
    ∀ i : Nat, prevBraceLoop line pos i =
      (match lastBraceLe line i with
        | some j => (j : Int) - (pos : Int)
        | none => 0) := by
  intro i
  induction i with
  | zero => rfl
  | succ i ih =>
    unfold prevBraceLoop lastBraceLe
    split_ifs <;> simp [ih]

/-- The next-brace loop is the search for the least brace index in the
scanned suffix. -/
theorem nextBraceLoop_eq (pos : Nat) :
    ∀ (l : Line) (i : Nat), nextBraceLoop pos l i =
      (match firstBraceFrom pos l i with
        | some j => (j : Int) - (pos : Int)
        | none => 0) := by
  intro l
  induction l with
  | nil => intro i; rfl
  | cons c rest ih =>
    intro i
    unfold nextBraceLoop firstBraceFrom
    split_ifs <;> simp [ih]

/-- C8 (amended): `viJumpPreviousBrace` returns the (negative) offset to
the nearest `'{'` strictly before the cursor **at a positive index** — a
brace at index 0 is never found, because the Go loop condition `i != 0`
stops before examining it — and returns 0 exactly when there is no such
brace or the cursor is at buffer start; `viJumpNextBrace` returns the
offset to the nearest `'{'` strictly after the cursor, or 0 when none
exists. -/
theorem viJumpBraces_nearest (line : Line) (pos : Nat) (hpos : pos ≤ line.length) :
    viJumpPreviousBrace line pos =
      (if pos = 0 then 0
       else match lastBraceLe line (pos - 1) with
        | some j => (j : Int) - (pos : Int)
        | none => 0) ∧
    viJumpNextBrace line pos =
      (match firstBraceFrom pos (line.drop (pos + 1)) (pos + 1) with
        | some j => (j : Int) - (pos : Int)
        | none => 0) := by
  constructor
  · unfold viJumpPreviousBrace
    split_ifs
    · rfl
    · exact prevBraceLoop_eq line pos (pos - 1)
  · unfold viJumpNextBrace
    split_ifs with h
    · have hdrop : line.drop (pos + 1) = [] := by
        apply List.drop_eq_nil_of_le
        omega
      rw [hdrop]
      rfl
    · exact nextBraceLoop_eq pos (line.drop (pos + 1)) (pos + 1)

/-- Witness for C8 (amended) at a concrete input: buffer `"a{b"`,
cursor 0: the previous-brace jump finds nothing behind the cursor and the
next-brace jump lands on index 1. -/
theorem viJumpBraces_nearest_witness :
    (0 : Nat) ≤ ['a', '{', 'b'].length ∧
    viJumpPreviousBrace ['a', '{', 'b'] 0 = 0 ∧
    viJumpNextBrace ['a', '{', 'b'] 0 = 1 :=
  ⟨by decide,
    by
      have h := viJumpBraces_nearest ['a', '{', 'b'] 0 (by decide)
      exact h.1.trans (by decide),
    by
      have h := viJumpBraces_nearest ['a', '{', 'b'] 0 (by decide)
      exact h.2.trans (by decide)⟩

/-!
## Tokenizer strategies — used by the motion engine (claim C2)

The tokenizers (`tokeniseLine`, `tokeniseBrackets`) are repository code not
under `src/` (only their callers in `vim-utils.go` are).  They are modelled
from the spec, §4.1: the word tokenizer "groups maximal runs of word
characters and of punctuation separately, treating whitespace as a
separator consumed into the following token's leading edge" (a trailing
all-blank run, about which the spec is silent, is attached to the last
token, matching the trailing-blank trimming the motion engine performs);
the bracket-depth tokenizer "splits the line at top-level bracket
boundaries".  Both report the token containing the cursor and the offset
within it, with the spec's edge rules: an empty buffer yields zero tokens,
and a cursor at end-of-buffer yields the last token at offset its length.
-/

/-- The three character classes of the word tokenizer: blank, word,
punctuation. -/
def classOf (c : Char) : Nat := if isBlank c then 0 else if isWordChar c then 1 else 2

/-- Split into maximal same-class runs (`acc` is the current run,
reversed; `cl` its class). -/
def chunksAux : Line → Nat → Line → List Line
  | [], _, acc => [acc.reverse]
  | c :: rest, cl, acc =>
    if classOf c = cl then chunksAux rest cl (c :: acc)
    else acc.reverse :: chunksAux rest (classOf c) [c]

/-- The maximal same-class runs of a line. -/
def tokChunks : Line → List Line
  | [] => []
  | c :: cs => chunksAux cs (classOf c) [c]

/-- Whether a run consists of blanks (runs are class-uniform, so the head
decides). -/
def isBlankRun : Line → Bool
  | [] => false
  | c :: _ => isBlank c

/-- Attach each blank run to the leading edge of the following token, and
a trailing blank run to the preceding token. -/
def glueTokens : List Line → List Line
  | [] => []
  | [r] => [r]
  | r1 :: r2 :: rest =>
    if isBlankRun r2 ∧ rest = [] then [r1 ++ r2]
    else if isBlankRun r1 then
      (match glueTokens (r2 :: rest) with
       | [] => [r1]
       | t :: ts => (r1 ++ t) :: ts)
    else r1 :: glueTokens (r2 :: rest)

/-- Bracket characters opening a top-level token. -/
def isOpenBracketChar (c : Char) : Bool := c = '(' ∨ c = '[' ∨ c = '{'

/-- Bracket characters closing a top-level token. -/
def isCloseBracketChar (c : Char) : Bool := c = ')' ∨ c = ']' ∨ c = '}'

/-- Depth-tracking splitter of the bracket tokenizer: a top-level opening
bracket starts a new token, the matching closing bracket ends it; `acc` is
the current chunk, reversed. -/
def brkAux : Line → Nat → Line → List Line
  | [], _, acc => if acc = [] then [] else [acc.reverse]
  | c :: rest, depth, acc =>
    if isOpenBracketChar c ∧ depth = 0 then
      (if acc = [] then brkAux rest 1 [c] else acc.reverse :: brkAux rest 1 [c])
    else if isOpenBracketChar c then brkAux rest (depth + 1) (c :: acc)
    else if isCloseBracketChar c ∧ depth = 1 then (c :: acc).reverse :: brkAux rest 0 []
    else if isCloseBracketChar c ∧ 1 < depth then brkAux rest (depth - 1) (c :: acc)
    else brkAux rest depth (c :: acc)

/-- The top-level bracket chunks of a line. -/
def brkChunks (l : Line) : List Line := brkAux l 0 []

/-- Locate the cursor in a token list: the token containing the cursor and
the offset within it; a cursor at or past the end lands on the last token
at offset its length. -/
def locate : List Line → Nat → Nat × Nat
  | [], _ => (0, 0)
  | [t], c => (0, min c t.length)
  | t :: t2 :: ts, c =>
    if c < t.length then (0, c)
    else ((locate (t2 :: ts) (c - t.length)).1 + 1, (locate (t2 :: ts) (c - t.length)).2)

/-- Offset of the start of token `i` in the reassembled line. -/
def startOf (ts : List Line) (i : Nat) : Nat := ((ts.take i).map List.length).sum

theorem startOf_cons_succ (t : Line) (ts : List Line) (i : Nat) :
    startOf (t :: ts) (i + 1) = t.length + startOf ts i := by
  simp [startOf]

theorem startOf_succ (ts : List Line) :
    ∀ i : Nat, i < ts.length → startOf ts (i + 1) = startOf ts i + (ts.getD i []).length := by
  induction ts with
  | nil => intro i h; simp at h
  | cons t ts ih =>
    intro i h
    cases i with
    | zero => simp [startOf]
    | succ j =>
      rw [startOf_cons_succ, startOf_cons_succ, ih j (by simpa using h)]
      simp [List.getD_cons_succ]
      omega

theorem startOf_le_sum (ts : List Line) :
    ∀ i : Nat, startOf ts i ≤ (ts.map List.length).sum := by
  induction ts with
  | nil => intro i; simp [startOf]
  | cons t ts ih =>
    intro i
    cases i with
    | zero => simp [startOf]
    | succ j =>
      rw [startOf_cons_succ]
      have := ih j
      simp only [List.map_cons, List.sum_cons]
      omega

theorem getD_mem : ∀ (ts : List Line) (i : Nat), i < ts.length → ts.getD i [] ∈ ts := by
  intro ts
  induction ts with
  | nil => intro i h; simp at h
  | cons t ts ih =>
    intro i h
    cases i with
    | zero => simp [List.getD_cons_zero]
    | succ j =>
      rw [List.getD_cons_succ]
      exact List.mem_cons_of_mem t (ih j (by simpa using h))

theorem locate_spec : ∀ (ts : List Line) (c : Nat), ts ≠ [] →
    (locate ts c).1 < ts.length ∧
    (locate ts c).2 ≤ (ts.getD (locate ts c).1 []).length ∧
    startOf ts (locate ts c).1 + (locate ts c).2 = min c (ts.map List.length).sum := by
  intro ts
  induction ts with
  | nil => intro c h; exact absurd rfl h
  | cons t ts ih =>
    intro c _
    cases ts with
    | nil =>
      refine ⟨by simp [locate], ?_, ?_⟩
      · simp [locate, List.getD_cons_zero]
      · simp [locate, startOf]
    | cons t2 ts2 =>
      by_cases hc : c < t.length
      · refine ⟨by simp [locate, hc], ?_, ?_⟩
        · simp [locate, hc, List.getD_cons_zero]
          omega
        · simp only [locate, hc, if_true, ite_true, startOf, List.take_zero, List.map_nil,
            List.sum_nil, Nat.zero_add, List.map_cons, List.sum_cons]
          omega
      · obtain ⟨ih1, ih2, ih3⟩ := ih (c - t.length) (by simp)
        have hloc : locate (t :: t2 :: ts2) c =
            ((locate (t2 :: ts2) (c - t.length)).1 + 1, (locate (t2 :: ts2) (c - t.length)).2) := by
          simp [locate, hc]
        refine ⟨?_, ?_, ?_⟩
        · rw [hloc]
          simpa using Nat.succ_lt_succ ih1
        · rw [hloc]
          simpa [List.getD_cons_succ] using ih2
        · rw [hloc]
          simp only [startOf_cons_succ]
          simp only [List.map_cons, List.sum_cons] at *
          omega

theorem chunksAux_join : ∀ (l : Line) (cl : Nat) (acc : Line),
    (chunksAux l cl acc).join = acc.reverse ++ l := by
  intro l
  induction l with
  | nil => intro cl acc; simp [chunksAux]
  | cons c rest ih =>
    intro cl acc
    unfold chunksAux
    split_ifs
    · rw [ih]
      simp
    · simp only [List.join_cons, ih]
      simp

theorem chunksAux_mem_ne_nil : ∀ (l : Line) (cl : Nat) (acc : Line), acc ≠ [] →
    ∀ t ∈ chunksAux l cl acc, t ≠ [] := by
  intro l
  induction l with
  | nil =>
    intro cl acc hacc t ht
    simp only [chunksAux, List.mem_singleton] at ht
    subst ht
    simpa using hacc
  | cons c rest ih =>
    intro cl acc hacc t ht
    unfold chunksAux at ht
    split_ifs at ht
    · exact ih cl (c :: acc) (by simp) t ht
    · rcases List.mem_cons.mp ht with h | h
      · subst h; simpa using hacc
      · exact ih (classOf c) [c] (by simp) t h

theorem tokChunks_join (l : Line) : (tokChunks l).join = l := by
  cases l with
  | nil => rfl
  | cons c cs =>
    unfold tokChunks
    rw [chunksAux_join]
    rfl

theorem tokChunks_mem_ne_nil (l : Line) : ∀ t ∈ tokChunks l, t ≠ [] := by
  cases l with
  | nil => intro t ht; simp [tokChunks] at ht
  | cons c cs => exact chunksAux_mem_ne_nil cs (classOf c) [c] (by simp)

theorem glueTokens_ne_nil : ∀ ls : List Line, ls ≠ [] → glueTokens ls ≠ [] := by
  intro ls
  match ls with
  | [] => intro h; exact absurd rfl h
  | [r] => intro _; simp [glueTokens]
  | r1 :: r2 :: rest =>
    intro _
    unfold glueTokens
    split_ifs
    · simp
    · split <;> simp
    · simp

theorem glueTokens_join : ∀ ls : List Line, (glueTokens ls).join = ls.join := by
  intro ls
  match ls with
  | [] => rfl
  | [r] => rfl
  | r1 :: r2 :: rest =>
    unfold glueTokens
    split_ifs with h1 h2
    · obtain ⟨_, hrest⟩ := h1
      subst hrest
      simp
    · have hne := glueTokens_ne_nil (r2 :: rest) (by simp)
      have hj := glueTokens_join (r2 :: rest)
      split
      · next heq => exact absurd heq hne
      · next t ts heq =>
        rw [heq] at hj
        simp only [List.join_cons] at hj ⊢
        simp only [List.append_assoc] at hj ⊢
        rw [hj]
    · have hj := glueTokens_join (r2 :: rest)
      simp only [List.join_cons, hj]

theorem glueTokens_mem_ne_nil : ∀ ls : List Line, (∀ t ∈ ls, t ≠ []) →
    ∀ t ∈ glueTokens ls, t ≠ [] := by
  intro ls
  match ls with
  | [] => intro _ t ht; simp [glueTokens] at ht
  | [r0] =>
    intro h u hu
    simp only [glueTokens, List.mem_singleton] at hu
    subst hu
    exact h _ (by simp)
  | r1 :: r2 :: rest =>
    intro h t ht
    have hr1 : r1 ≠ [] := h r1 (by simp)
    unfold glueTokens at ht
    split_ifs at ht
    · simp only [List.mem_singleton] at ht
      subst ht
      simp [hr1]
    · split at ht
      · simp only [List.mem_singleton] at ht
        subst ht
        exact hr1
      · next t0 ts0 heq =>
        rcases List.mem_cons.mp ht with hh | hh
        · subst hh
          simp [hr1]
        · have : ∀ t ∈ glueTokens (r2 :: rest), t ≠ [] :=
            glueTokens_mem_ne_nil (r2 :: rest) (fun u hu => h u (List.mem_cons_of_mem r1 hu))
          exact this t (by rw [heq]; exact List.mem_cons_of_mem t0 hh)
    · rcases List.mem_cons.mp ht with hh | hh
      · subst hh; exact hr1
      · exact glueTokens_mem_ne_nil (r2 :: rest)
          (fun u hu => h u (List.mem_cons_of_mem r1 hu)) t hh

theorem brkAux_join : ∀ (l : Line) (depth : Nat) (acc : Line),
    (brkAux l depth acc).join = acc.reverse ++ l := by
  intro l
  induction l with
  | nil =>
    intro depth acc
    unfold brkAux
    split_ifs with h
    · simp [h]
    · simp
  | cons c rest ih =>
    intro depth acc
    unfold brkAux
    split_ifs <;>
      first
        | (rw [ih]; simp_all)
        | (simp only [List.join_cons, ih]; simp_all)

theorem brkAux_mem_ne_nil : ∀ (l : Line) (depth : Nat) (acc : Line),
    ∀ t ∈ brkAux l depth acc, t ≠ [] := by
  intro l
  induction l with
  | nil =>
    intro depth acc t ht
    unfold brkAux at ht
    split_ifs at ht with h
    · simp at ht
    · simp only [List.mem_singleton] at ht
      subst ht
      simpa using h
  | cons c rest ih =>
    intro depth acc t ht
    unfold brkAux at ht
    split_ifs at ht <;>
      first
        | exact ih _ _ t ht
        | (cases List.mem_cons.mp ht with
            | inl hh => subst hh; simp_all
            | inr hh => exact ih _ _ t hh)

/-- The type of a tokenizer strategy (Go `tokeniser`): buffer and cursor
in, token list plus cursor token index and in-token offset out. -/
def Tokeniser := Line → Nat → List Line × Nat × Nat

/-- Modelled from the spec: the word tokenizer (`tokeniseLine`, repository
code not under `src/`). -/
def tokeniseLine : Tokeniser := fun line cursor =>
  (glueTokens (tokChunks line),
    (locate (glueTokens (tokChunks line)) cursor).1,
    (locate (glueTokens (tokChunks line)) cursor).2)

/-- Modelled from the spec: the bracket-depth tokenizer
(`tokeniseBrackets`, repository code not under `src/`). -/
def tokeniseBrackets : Tokeniser := fun line cursor =>
  (brkChunks line, (locate (brkChunks line) cursor).1, (locate (brkChunks line) cursor).2)

/-- The tokenizer contract of the spec, §4.1: the tokens reassemble the
buffer, are non-empty, the reported index is a valid token index, the
reported offset stays within that token, and index/offset locate the
cursor. -/
def TokOK (f : Tokeniser) : Prop :=
  ∀ line cursor, cursor ≤ line.length →
    (f line cursor).1.join = line ∧
    (∀ t ∈ (f line cursor).1, t ≠ []) ∧
    ((f line cursor).1 ≠ [] →
      (f line cursor).2.1 < (f line cursor).1.length ∧
      (f line cursor).2.2 ≤ ((f line cursor).1.getD (f line cursor).2.1 []).length ∧
      startOf (f line cursor).1 (f line cursor).2.1 + (f line cursor).2.2 = cursor)

theorem tokOK_mk (mk : Line → List Line) (hjoin : ∀ l, (mk l).join = l)
    (hne : ∀ l, ∀ t ∈ mk l, t ≠ []) :
    TokOK (fun line cursor =>
      (mk line, (locate (mk line) cursor).1, (locate (mk line) cursor).2)) := by
  intro line cursor hc
  refine ⟨hjoin line, hne line, fun hts => ?_⟩
  obtain ⟨l1, l2, l3⟩ := locate_spec (mk line) cursor hts
  refine ⟨l1, l2, ?_⟩
  rw [l3]
  have hsum : ((mk line).map List.length).sum = line.length := by
    conv_rhs => rw [← hjoin line]
    rw [List.length_join]
  omega

theorem tokOK_tokeniseLine : TokOK tokeniseLine :=
  tokOK_mk (fun l => glueTokens (tokChunks l))
    (fun l => by rw [glueTokens_join, tokChunks_join])
    (fun l => glueTokens_mem_ne_nil (tokChunks l) (tokChunks_mem_ne_nil l))

theorem tokOK_tokeniseBrackets : TokOK tokeniseBrackets :=
  tokOK_mk brkChunks
    (fun l => by simpa using brkAux_join l 0 [])
    (fun l => brkAux_mem_ne_nil l 0 [])

/-!
## Motion engine (`vim-utils.go`) — claim C2
-/

/-- Modelled from the spec: `rTrimWhiteSpace` (repository code not under
`src/`) trims trailing blanks from a token's text. -/
def rTrimWhiteSpace (l : Line) : Line := (l.reverse.dropWhile isBlank).reverse

/-- `viJumpB` from `vim-utils.go`: signed offset of a backward word jump. -/
def viJumpB (tok : Tokeniser) (line : Line) (pos : Nat) : Int :=
  match tok line pos with
  | (split, index, p) =>
    if split.length = 0 then 0
    else if index = 0 ∧ p = 0 then 0
    else if p = 0 then -((split.getD (index - 1) []).length : Int)
    else -(p : Int)

/-- `viJumpE` from `vim-utils.go`: signed offset of an end-of-word jump
(Go `pos >= len(word)-1` is an `int` comparison, hence the casts; the
switch's dead duplicate `len(split) == 0` case is dropped). -/
def viJumpE (tok : Tokeniser) (line : Line) (pos : Nat) : Int :=
  match tok line pos with
  | (split, index, p) =>
    if split.length = 0 then 0
    else
      if index = split.length - 1 ∧
          ((rTrimWhiteSpace (split.getD index [])).length : Int) - 1 ≤ (p : Int) then 0
      else if ((rTrimWhiteSpace (split.getD index [])).length : Int) - 1 ≤ (p : Int) then
        ((split.getD index []).length : Int) - (p : Int) +
          ((rTrimWhiteSpace (split.getD (index + 1) [])).length : Int) - 1
      else ((rTrimWhiteSpace (split.getD index [])).length : Int) - (p : Int) - 1

/-- `viJumpW` from `vim-utils.go`: signed offset of a forward word jump. -/
def viJumpW (tok : Tokeniser) (line : Line) (pos : Nat) : Int :=
  match tok line pos with
  | (split, index, p) =>
    if split.length = 0 then 0
    else if index + 1 = split.length then (line.length : Int) - (pos : Int)
    else ((split.getD index []).length : Int) - (p : Int)

/-- `viJumpBracket` from `vim-utils.go`: jump to the start of the
enclosing bracket token, or to its end when already at its start. -/
def viJumpBracket (line : Line) (pos : Nat) : Int :=
  match tokeniseBrackets line pos with
  | (split, index, p) =>
    if split.length = 0 then 0
    else if p = 0 then ((split.getD index []).length : Int)
    else -(p : Int)

theorem sum_length_of_join (split : List Line) (line : Line) (hjoin : split.join = line) :
    (split.map List.length).sum = line.length := by
  rw [← hjoin, List.length_join]

theorem startOf_le_len (split : List Line) (line : Line) (hjoin : split.join = line) (i : Nat) :
    startOf split i ≤ line.length := by
  have h1 := startOf_le_sum split i
  have h2 := sum_length_of_join split line hjoin
  omega

theorem length_dropWhile_blank_le : ∀ l : Line, (l.dropWhile isBlank).length ≤ l.length := by
  intro l
  induction l with
  | nil => simp
  | cons c rest ih =>
    rw [List.dropWhile_cons]
    split_ifs
    · simp only [List.length_cons]
      omega
    · simp

theorem rTrim_le (l : Line) : (rTrimWhiteSpace l).length ≤ l.length := by
  unfold rTrimWhiteSpace
  rw [List.length_reverse]
  calc (l.reverse.dropWhile isBlank).length
      ≤ l.reverse.length := length_dropWhile_blank_le _
    _ = l.length := List.length_reverse l

theorem getD_length_pos (split : List Line) (hne : ∀ t ∈ split, t ≠ []) :
    ∀ j, j < split.length → 1 ≤ (split.getD j []).length := by
  intro j hj
  have hmem := getD_mem split j hj
  have hn := hne _ hmem
  rcases h : split.getD j [] with _ | ⟨c, cs⟩
  · rw [h] at hn
    exact absurd rfl hn
  · simp

theorem viJumpB_bounds (tok : Tokeniser) (htok : TokOK tok) (line : Line) (pos : Nat)
    (hpos : pos ≤ line.length) :
    0 ≤ (pos : Int) + viJumpB tok line pos ∧
      (pos : Int) + viJumpB tok line pos ≤ (line.length : Int) := by
  obtain ⟨hjoin, hne, hloc⟩ := htok line pos hpos
  unfold viJumpB
  rcases hE : tok line pos with ⟨split, index, p⟩
  rw [hE] at hjoin hne hloc
  dsimp only at hjoin hne hloc ⊢
  by_cases h0 : split.length = 0
  · rw [if_pos h0]
    constructor <;> omega
  · have hts : split ≠ [] := by
      intro h
      rw [h] at h0
      simp at h0
    obtain ⟨hidx, hp, hstart⟩ := hloc hts
    rw [if_neg h0]
    by_cases h1 : index = 0 ∧ p = 0
    · rw [if_pos h1]
      constructor <;> omega
    · rw [if_neg h1]
      by_cases h2 : p = 0
      · rw [if_pos h2]
        have hi0 : index ≠ 0 := fun h => h1 ⟨h, h2⟩
        have hs := startOf_succ split (index - 1) (by omega)
        have hi : index - 1 + 1 = index := by omega
        rw [hi] at hs
        have hb := startOf_le_len split line hjoin index
        omega
      · rw [if_neg h2]
        have hb := startOf_le_len split line hjoin index
        omega

theorem viJumpE_bounds (tok : Tokeniser) (htok : TokOK tok) (line : Line) (pos : Nat)
    (hpos : pos ≤ line.length) :
    0 ≤ (pos : Int) + viJumpE tok line pos ∧
      (pos : Int) + viJumpE tok line pos ≤ (line.length : Int) := by
  obtain ⟨hjoin, hne, hloc⟩ := htok line pos hpos
  unfold viJumpE
  rcases hE : tok line pos with ⟨split, index, p⟩
  rw [hE] at hjoin hne hloc
  dsimp only at hjoin hne hloc ⊢
  by_cases h0 : split.length = 0
  · rw [if_pos h0]
    constructor <;> omega
  · have hts : split ≠ [] := by
      intro h
      rw [h] at h0
      simp at h0
    obtain ⟨hidx, hp, hstart⟩ := hloc hts
    rw [if_neg h0]
    by_cases hA : index = split.length - 1 ∧
        ((rTrimWhiteSpace (split.getD index [])).length : Int) - 1 ≤ (p : Int)
    · rw [if_pos hA]
      constructor <;> omega
    · rw [if_neg hA]
      by_cases hcond : ((rTrimWhiteSpace (split.getD index [])).length : Int) - 1 ≤ (p : Int)
      · rw [if_pos hcond]
        have hi1 : index ≠ split.length - 1 := fun h => hA ⟨h, hcond⟩
        have hidx2 : index + 1 < split.length := by omega
        have h1s := startOf_succ split index hidx
        have h2s := startOf_succ split (index + 1) hidx2
        have he2 : index + 1 + 1 = index + 2 := rfl
        rw [he2] at h2s
        have hb := startOf_le_len split line hjoin (index + 2)
        have htr2 := rTrim_le (split.getD (index + 1) [])
        have hL1 := getD_length_pos split hne index hidx
        omega
      · rw [if_neg hcond]
        have h1s := startOf_succ split index hidx
        have hb := startOf_le_len split line hjoin (index + 1)
        have htr := rTrim_le (split.getD index [])
        omega

theorem viJumpW_bounds (tok : Tokeniser) (htok : TokOK tok) (line : Line) (pos : Nat)
    (hpos : pos ≤ line.length) :
    0 ≤ (pos : Int) + viJumpW tok line pos ∧
      (pos : Int) + viJumpW tok line pos ≤ (line.length : Int) := by
  obtain ⟨hjoin, hne, hloc⟩ := htok line pos hpos
  unfold viJumpW
  rcases hE : tok line pos with ⟨split, index, p⟩
  rw [hE] at hjoin hne hloc
  dsimp only at hjoin hne hloc ⊢
  by_cases h0 : split.length = 0
  · rw [if_pos h0]
    constructor <;> omega
  · have hts : split ≠ [] := by
      intro h
      rw [h] at h0
      simp at h0
    obtain ⟨hidx, hp, hstart⟩ := hloc hts
    rw [if_neg h0]
    by_cases h1 : index + 1 = split.length
    · rw [if_pos h1]
      constructor <;> omega
    · rw [if_neg h1]
      have h1s := startOf_succ split index hidx
      have hb := startOf_le_len split line hjoin (index + 1)
      omega

theorem viJumpBracket_bounds (line : Line) (pos : Nat) (hpos : pos ≤ line.length) :
    0 ≤ (pos : Int) + viJumpBracket line pos ∧
      (pos : Int) + viJumpBracket line pos ≤ (line.length : Int) := by
  obtain ⟨hjoin, hne, hloc⟩ := tokOK_tokeniseBrackets line pos hpos
  unfold viJumpBracket
  rcases hE : tokeniseBrackets line pos with ⟨split, index, p⟩
  rw [hE] at hjoin hne hloc
  dsimp only at hjoin hne hloc ⊢
  by_cases h0 : split.length = 0
  · rw [if_pos h0]
    constructor <;> omega
  · have hts : split ≠ [] := by
      intro h
      rw [h] at h0
      simp at h0
    obtain ⟨hidx, hp, hstart⟩ := hloc hts
    rw [if_neg h0]
    by_cases h1 : p = 0
    · rw [if_pos h1]
      have h1s := startOf_succ split index hidx
      have hb := startOf_le_len split line hjoin (index + 1)
      omega
    · rw [if_neg h1]
      have hb := startOf_le_len split line hjoin index
      omega

theorem lastBraceLe_le (line : Line) :
    ∀ i j, lastBraceLe line i = some j → 1 ≤ j ∧ j ≤ i := by
  intro i
  induction i with
  | zero =>
    intro j h
    simp [lastBraceLe] at h
  | succ i ih =>
    intro j h
    unfold lastBraceLe at h
    split_ifs at h
    · simp only [Option.some.injEq] at h
      omega
    · have := ih j h
      omega

theorem firstBraceFrom_bounds (pos : Nat) : ∀ (l : Line) (i j : Nat),
    firstBraceFrom pos l i = some j → i ≤ j ∧ j < i + l.length := by
  intro l
  induction l with
  | nil =>
    intro i j h
    simp [firstBraceFrom] at h
  | cons c rest ih =>
    intro i j h
    unfold firstBraceFrom at h
    split_ifs at h
    · simp only [Option.some.injEq] at h
      simp only [List.length_cons]
      omega
    · have := ih (i + 1) j h
      simp only [List.length_cons]
      omega

theorem prevBraceLoop_some (line : Line) (pos : Nat) (i j : Nat)
    (hB : lastBraceLe line i = some j) :
    prevBraceLoop line pos i = (j : Int) - (pos : Int) := by
  rw [prevBraceLoop_eq, hB]

theorem prevBraceLoop_none (line : Line) (pos : Nat) (i : Nat)
    (hB : lastBraceLe line i = none) :
    prevBraceLoop line pos i = 0 := by
  rw [prevBraceLoop_eq, hB]

theorem nextBraceLoop_some (pos : Nat) (l : Line) (i j : Nat)
    (hB : firstBraceFrom pos l i = some j) :
    nextBraceLoop pos l i = (j : Int) - (pos : Int) := by
  rw [nextBraceLoop_eq, hB]

theorem nextBraceLoop_none (pos : Nat) (l : Line) (i : Nat)
    (hB : firstBraceFrom pos l i = none) :
    nextBraceLoop pos l i = 0 := by
  rw [nextBraceLoop_eq, hB]

theorem viJumpPreviousBrace_bounds (line : Line) (pos : Nat) (hpos : pos ≤ line.length) :
    0 ≤ (pos : Int) + viJumpPreviousBrace line pos ∧
      (pos : Int) + viJumpPreviousBrace line pos ≤ (line.length : Int) := by
  unfold viJumpPreviousBrace
  split_ifs with h
  · constructor <;> omega
  · rcases hB : lastBraceLe line (pos - 1) with _ | j
    · rw [prevBraceLoop_none line pos (pos - 1) hB]
      constructor <;> omega
    · obtain ⟨hj1, hj2⟩ := lastBraceLe_le line (pos - 1) j hB
      rw [prevBraceLoop_some line pos (pos - 1) j hB]
      constructor <;> omega

theorem viJumpNextBrace_bounds (line : Line) (pos : Nat) (hpos : pos ≤ line.length) :
    0 ≤ (pos : Int) + viJumpNextBrace line pos ∧
      (pos : Int) + viJumpNextBrace line pos ≤ (line.length : Int) := by
  unfold viJumpNextBrace
  split_ifs with h
  · constructor <;> omega
  · rcases hB : firstBraceFrom pos (line.drop (pos + 1)) (pos + 1) with _ | j
    · rw [nextBraceLoop_none pos (line.drop (pos + 1)) (pos + 1) hB]
      constructor <;> omega
    · obtain ⟨hj1, hj2⟩ := firstBraceFrom_bounds pos (line.drop (pos + 1)) (pos + 1) j hB
      have hd : (line.drop (pos + 1)).length = line.length - (pos + 1) := by simp
      rw [nextBraceLoop_some pos (line.drop (pos + 1)) (pos + 1) j hB]
      constructor <;> omega

/-- C2: for every buffer and every valid cursor position
`0 ≤ pos ≤ len(buffer)`, each motion function (`viJumpB`, `viJumpE`,
`viJumpW`, `viJumpPreviousBrace`, `viJumpNextBrace`, `viJumpBracket`)
returns a signed offset `d` with `0 ≤ pos + d ≤ len(buffer)`.  The
tokenized motions are instantiated at the word tokenizer `tokeniseLine`
(their dispatch-table instantiation); their bounds are proved generically
for any tokenizer satisfying the contract `TokOK`. -/
theorem motions_in_bounds (line : Line) (pos : Nat) (hpos : pos ≤ line.length) :
    (0 ≤ (pos : Int) + viJumpB tokeniseLine line pos ∧
      (pos : Int) + viJumpB tokeniseLine line pos ≤ (line.length : Int)) ∧
    (0 ≤ (pos : Int) + viJumpE tokeniseLine line pos ∧
      (pos : Int) + viJumpE tokeniseLine line pos ≤ (line.length : Int)) ∧
    (0 ≤ (pos : Int) + viJumpW tokeniseLine line pos ∧
      (pos : Int) + viJumpW tokeniseLine line pos ≤ (line.length : Int)) ∧
    (0 ≤ (pos : Int) + viJumpPreviousBrace line pos ∧
      (pos : Int) + viJumpPreviousBrace line pos ≤ (line.length : Int)) ∧
    (0 ≤ (pos : Int) + viJumpNextBrace line pos ∧
      (pos : Int) + viJumpNextBrace line pos ≤ (line.length : Int)) ∧
    (0 ≤ (pos : Int) + viJumpBracket line pos ∧
      (pos : Int) + viJumpBracket line pos ≤ (line.length : Int)) :=
  ⟨viJumpB_bounds tokeniseLine tokOK_tokeniseLine line pos hpos,
    viJumpE_bounds tokeniseLine tokOK_tokeniseLine line pos hpos,
    viJumpW_bounds tokeniseLine tokOK_tokeniseLine line pos hpos,
    viJumpPreviousBrace_bounds line pos hpos,
    viJumpNextBrace_bounds line pos hpos,
    viJumpBracket_bounds line pos hpos⟩

/-- Witness for C2 at a concrete input: buffer `"a b"`, cursor 1. -/
theorem motions_in_bounds_witness :
    (1 : Nat) ≤ ['a', ' ', 'b'].length ∧
    ((0 ≤ (1 : Int) + viJumpB tokeniseLine ['a', ' ', 'b'] 1 ∧
      (1 : Int) + viJumpB tokeniseLine ['a', ' ', 'b'] 1 ≤ (['a', ' ', 'b'].length : Int)) ∧
    (0 ≤ (1 : Int) + viJumpE tokeniseLine ['a', ' ', 'b'] 1 ∧
      (1 : Int) + viJumpE tokeniseLine ['a', ' ', 'b'] 1 ≤ (['a', ' ', 'b'].length : Int)) ∧
    (0 ≤ (1 : Int) + viJumpW tokeniseLine ['a', ' ', 'b'] 1 ∧
      (1 : Int) + viJumpW tokeniseLine ['a', ' ', 'b'] 1 ≤ (['a', ' ', 'b'].length : Int)) ∧
    (0 ≤ (1 : Int) + viJumpPreviousBrace ['a', ' ', 'b'] 1 ∧
      (1 : Int) + viJumpPreviousBrace ['a', ' ', 'b'] 1 ≤ (['a', ' ', 'b'].length : Int)) ∧
    (0 ≤ (1 : Int) + viJumpNextBrace ['a', ' ', 'b'] 1 ∧
      (1 : Int) + viJumpNextBrace ['a', ' ', 'b'] 1 ≤ (['a', ' ', 'b'].length : Int)) ∧
    (0 ≤ (1 : Int) + viJumpBracket ['a', ' ', 'b'] 1 ∧
      (1 : Int) + viJumpBracket ['a', ' ', 'b'] 1 ≤ (['a', ' ', 'b'].length : Int))) :=
  ⟨by decide, motions_in_bounds ['a', ' ', 'b'] 1 (by decide)⟩

end Readline
